import Mathlib

/-!
Verification of the Clue puzzle-generation engine.

The engine (python-scripts/solver.py, generate_clue_game.py, clue_models.py,
generate_serialized_game.py, clue_game.py) builds boolean formulas over string
atoms ("{person}_{value}" and "{person}_is_killer"), keeps an append-only
knowledge base, and runs a convergence loop that accepts a candidate
proposition only when the true killer remains satisfiable.

The embedding below mirrors those functions.  sympy boolean expressions become
the inductive type `Formula`; `sympy.logic.inference.satisfiable` becomes the
executable `satisfiable` (exhaustive evaluation over the atoms of the formula),
proved equivalent to semantic satisfiability in `satisfiable_iff_exists`.
The Python global PRNG is modelled as an explicit stream of naturals that is
a deterministic function of the seed and of the number of draws made so far.
-/

/-- Boolean formulas over string-keyed atoms, mirroring the sympy expressions
built by the engine (`symbols`, `And`, `Or`, `Not`, `Implies`; `tru`/`fls` play
the role of sympy's `true`/`false` produced by empty `And(*[])`/`Or(*[])`). -/
inductive Formula where
  | tru : Formula
  | fls : Formula
  | atom (key : String) : Formula
  | not (f : Formula) : Formula
  | and (f g : Formula) : Formula
  | or (f g : Formula) : Formula
  | implies (f g : Formula) : Formula
deriving DecidableEq, Repr

/-- Truth value of a formula under a valuation of the atoms. -/
def Formula.eval (v : String → Bool) : Formula → Bool
  | .tru => true
  | .fls => false
  | .atom k => v k
  | .not f => !(f.eval v)
  | .and f g => f.eval v && g.eval v
  | .or f g => f.eval v || g.eval v
  | .implies f g => !(f.eval v) || g.eval v

/-- The list of atom keys occurring in a formula. -/
def Formula.atoms : Formula → List String
  | .tru => []
  | .fls => []
  | .atom k => [k]
  | .not f => f.atoms
  | .and f g => f.atoms ++ g.atoms
  | .or f g => f.atoms ++ g.atoms
  | .implies f g => f.atoms ++ g.atoms

/-- All valuations that vary over the given list of keys (everything else is
false).  Used to decide satisfiability by exhaustive evaluation. -/
def allVals : List String → List (String → Bool)
  | [] => [fun _ => false]
  | a :: rest =>
      (allVals rest).flatMap (fun v =>
        [fun k => if k = a then true else v k,
         fun k => if k = a then false else v k])

/-- Model of `sympy.logic.inference.satisfiable` (the engine only uses the
result through `is not False`, i.e. as a boolean): exhaustive evaluation over
assignments to the atoms of the formula.  `satisfiable_iff_exists` below shows
this decides semantic satisfiability. -/
def satisfiable (f : Formula) : Bool :=
  (allVals f.atoms).any (fun v => f.eval v)

/-- Conjunction of a list of formulas, modelling sympy `And(*list)`. -/
def listAnd (l : List Formula) : Formula :=
  l.foldr Formula.and Formula.tru

/-- Disjunction of a list of formulas, modelling sympy `Or(*list)`. -/
def listOr (l : List Formula) : Formula :=
  l.foldr Formula.or Formula.fls

/-- One person's drawn activities (clue_models.PersonActivity), field order as
in the source. -/
structure PersonActivity where
  technology : String
  place : String
  company : String
  institution : String
  food : String
  material : String
deriving DecidableEq, Repr

/-- Structured description of one proposition (clue_models.PropositionData):
all shape-specific fields are optional, unset fields are `none`. -/
structure PropositionData where
  prop_type : String
  person : Option String := none
  person1 : Option String := none
  person2 : Option String := none
  attr_category : Option String := none
  attr1_cat : Option String := none
  attr2_cat : Option String := none
  value : Option String := none
  val1 : Option String := none
  val2 : Option String := none
  mat1 : Option String := none
  food2 : Option String := none
  inst2 : Option String := none
deriving DecidableEq, Repr

def PROP_PERSON_AND_ATTRIBUTE : String := "person_and_attribute"
def PROP_PERSON_OR_PERSON : String := "person_or_person"
def PROP_PERSON_ATTRIBUTE_IMPLIES_NOT_KILLER : String :=
  "person_attribute_implies_not_killer"
def PROP_COMPLEX_OR : String := "complex_or"
def PROP_DIRECT_ELIMINATION : String := "direct_elimination"

/-- The atom key f"{person}_{value}" used by the engine for attribute atoms. -/
def attrKey (person value : String) : String := person ++ "_" ++ value

/-- The atom key f"{person}_is_killer". -/
def killerKey (person : String) : String := person ++ "_is_killer"

/-- Complete state of a game (clue_models.ClueGame).  `symbolKeys` is the key
set of `symbols_map` (a sympy symbol is identified by its key, so the map
itself carries no further information); `ground_truth` is the person-to-
activity dict, modelled as a total function (every lookup the engine performs
is on a name that `setup_scenario` has assigned). -/
structure Game where
  names : List String
  technologies : List String
  places : List String
  companies : List String
  institutions : List String
  foods : List String
  materials : List String
  symbolKeys : List String
  ground_truth : String → PersonActivity
  killer : String
  propositions : List (Formula × PropositionData)
  knowledge_base : List Formula

/-- Configuration for game generation (clue_models.GameConfig). -/
structure GameConfig where
  names : List String
  technologies : List String
  places : List String
  companies : List String
  institutions : List String
  foods : List String
  materials : List String
deriving DecidableEq, Repr

/-- solver.create_symbols: the keys inserted into symbols_map, in insertion
order (per person: materials, institutions, foods, places, companies,
technologies; then one is-killer key per person). -/
def create_symbols (names materials institutions foods places companies
    technologies : List String) : List String :=
  (names.flatMap (fun n =>
    materials.map (fun v => attrKey n v) ++
    institutions.map (fun v => attrKey n v) ++
    foods.map (fun v => attrKey n v) ++
    places.map (fun v => attrKey n v) ++
    companies.map (fun v => attrKey n v) ++
    technologies.map (fun v => attrKey n v))) ++
  names.map (fun n => killerKey n)

/-- Python getattr(activity, category) for the six attribute category names
used by the generator. -/
def getAttr (a : PersonActivity) (category : String) : String :=
  if category = "technology" then a.technology
  else if category = "place" then a.place
  else if category = "company" then a.company
  else if category = "institution" then a.institution
  else if category = "food" then a.food
  else if category = "material" then a.material
  else ""

/-- symbols_map.get(key): `some` of the atom when the key was created,
`none` otherwise. -/
def symGet (g : Game) (key : String) : Option Formula :=
  if key ∈ g.symbolKeys then some (Formula.atom key) else none

/-- Modelled from the spec: the Python standard-library global PRNG (not part
of this repository) is modelled as a stream of naturals that is a
deterministic function of the seed and of how many draws were made so far;
the spec only requires that the same seed reproduces the same draw sequence. -/
structure RandState where
  seed : Nat
  index : Nat
deriving DecidableEq, Repr

/-- Modelled from the spec: the value of the seed-determined stream at a given
position.  Any fixed function of (seed, index) is a faithful model of a
deterministic seeded PRNG. -/
def randomValue (seed index : Nat) : Nat := seed + index

/-- Draw one natural from the stream and advance it. -/
def randNext (r : RandState) : Nat × RandState :=
  (randomValue r.seed r.index, { r with index := r.index + 1 })

/-- random.choice(l): uniform choice from a list, `none` on the empty list. -/
def randChoice {α : Type} (l : List α) (r : RandState) :
    Option α × RandState :=
  let (n, r') := randNext r
  (l.get? (n % l.length), r')

/-- random.choice(l) at call sites where the list is known non-empty,
with a default for the (unreachable) empty case. -/
def randChoiceD {α : Type} (l : List α) (d : α) (r : RandState) :
    α × RandState :=
  let (c, r') := randChoice l r
  (c.getD d, r')

/-- solver.check_solution_count: the suspect counter.  On an empty knowledge
base it returns the full name list without calling the solver; otherwise each
name is kept exactly when is-killer together with the knowledge base is
satisfiable. -/
def check_solution_count (g : Game) : Nat × List String :=
  if g.knowledge_base = [] then (g.names.length, g.names)
  else
    let combined_knowledge := listAnd g.knowledge_base
    let possible_killers := g.names.filter (fun name =>
      satisfiable (.and combined_knowledge (.atom (killerKey name))))
    (possible_killers.length, possible_killers)

/-- solver.is_feasible_with_proposition: the feasibility oracle.  True iff
knowledge base ∧ candidate ∧ (true killer is killer) is satisfiable. -/
def is_feasible_with_proposition (g : Game) (proposition_expr : Formula) :
    Bool :=
  let test_kb := g.knowledge_base ++ [proposition_expr]
  let combined := listAnd test_kb
  satisfiable (.and combined (.atom (killerKey g.killer)))

/-- The pairwise "not both killers" clauses built by
solver.setup_initial_constraints (name1 ranges over the list, name2 over the
strictly later entries). -/
def notBothClauses : List String → List Formula
  | [] => []
  | n :: rest =>
      rest.map (fun m =>
        Formula.not (.and (.atom (killerKey n)) (.atom (killerKey m)))) ++
      notBothClauses rest

/-- The formulas appended by solver.setup_initial_constraints: one at-least-one
clause over all is-killer atoms, then the pairwise not-both clauses. -/
def initial_constraints (names : List String) : List Formula :=
  listOr (names.map (fun n => Formula.atom (killerKey n))) ::
    notBothClauses names

/-- solver.setup_initial_constraints: appends the exactly-one-killer clauses to
the knowledge base. -/
def setup_initial_constraints (g : Game) : Game :=
  { g with knowledge_base := g.knowledge_base ++ initial_constraints g.names }

/-- generate_clue_game.generate_proposition, PROP_PERSON_AND_ATTRIBUTE branch:
"person was with value" for a drawn person and drawn category, reading the
value from ground truth. -/
def gen_person_and_attribute (g : Game) (r : RandState) :
    Option (Formula × PropositionData) × RandState :=
  let (po, r) := randChoice g.names r
  let (co, r) := randChoice ["material", "institution", "food", "place"] r
  match po, co with
  | some person, some attr_category =>
      let actual_value := getAttr (g.ground_truth person) attr_category
      let symbol_key := attrKey person actual_value
      if symbol_key ∈ g.symbolKeys then
        (some (Formula.atom symbol_key,
          { prop_type := PROP_PERSON_AND_ATTRIBUTE,
            person := some person,
            attr_category := some attr_category,
            value := some actual_value }), r)
      else (none, r)
  | _, _ => (none, r)

/-- generate_proposition, PROP_PERSON_OR_PERSON branch: a disjunction of two
attribute atoms of two distinct drawn people. -/
def gen_person_or_person (g : Game) (r : RandState) :
    Option (Formula × PropositionData) × RandState :=
  let (p1o, r) := randChoice g.names r
  match p1o with
  | none => (none, r)
  | some person1 =>
    let (p2o, r) := randChoice (g.names.filter (fun n => n ≠ person1)) r
    let (c1o, r) := randChoice ["material", "institution", "food"] r
    let (c2o, r) := randChoice ["material", "institution", "food"] r
    match p2o, c1o, c2o with
    | some person2, some attr1_cat, some attr2_cat =>
        let val1 := getAttr (g.ground_truth person1) attr1_cat
        let val2 := getAttr (g.ground_truth person2) attr2_cat
        match symGet g (attrKey person1 val1), symGet g (attrKey person2 val2)
          with
        | some sym1, some sym2 =>
            (some (Formula.or sym1 sym2,
              { prop_type := PROP_PERSON_OR_PERSON,
                person1 := some person1,
                person2 := some person2,
                attr1_cat := some attr1_cat,
                attr2_cat := some attr2_cat,
                val1 := some val1,
                val2 := some val2 }), r)
        | _, _ => (none, r)
    | _, _, _ => (none, r)

/-- generate_proposition, PROP_PERSON_ATTRIBUTE_IMPLIES_NOT_KILLER branch: an
alibi implication for a drawn person who is not the true killer. -/
def gen_person_attribute_implies_not_killer (g : Game) (r : RandState) :
    Option (Formula × PropositionData) × RandState :=
  let innocent_people := g.names.filter (fun n => n ≠ g.killer)
  if innocent_people = [] then (none, r)
  else
    let (po, r) := randChoice innocent_people r
    let (co, r) := randChoice ["material", "institution", "food"] r
    match po, co with
    | some person, some attr_cat =>
        let val := getAttr (g.ground_truth person) attr_cat
        let killer_sym := Formula.atom (killerKey person)
        match symGet g (attrKey person val) with
        | some person_attr_sym =>
            (some (Formula.implies person_attr_sym (.not killer_sym),
              { prop_type := PROP_PERSON_ATTRIBUTE_IMPLIES_NOT_KILLER,
                person := some person,
                attr_category := some attr_cat,
                value := some val }), r)
        | none => (none, r)
    | _, _ => (none, r)

/-- generate_proposition, PROP_COMPLEX_OR branch: one person's material atom,
or-ed with the conjunction of a second person's food and institution atoms. -/
def gen_complex_or (g : Game) (r : RandState) :
    Option (Formula × PropositionData) × RandState :=
  let (p1o, r) := randChoice g.names r
  match p1o with
  | none => (none, r)
  | some person1 =>
    let (p2o, r) := randChoice (g.names.filter (fun n => n ≠ person1)) r
    match p2o with
    | none => (none, r)
    | some person2 =>
        let mat1 := (g.ground_truth person1).material
        let food2 := (g.ground_truth person2).food
        let inst2 := (g.ground_truth person2).institution
        match symGet g (attrKey person1 mat1), symGet g (attrKey person2 food2),
          symGet g (attrKey person2 inst2) with
        | some sym1, some sym2_food, some sym2_inst =>
            (some (Formula.or sym1 (.and sym2_food sym2_inst),
              { prop_type := PROP_COMPLEX_OR,
                person1 := some person1,
                person2 := some person2,
                mat1 := some mat1,
                food2 := some food2,
                inst2 := some inst2 }), r)
        | _, _, _ => (none, r)

/-- generate_proposition, PROP_DIRECT_ELIMINATION branch: first queries the
suspect counter, targets an innocent who is still a possible suspect, and
conjoins the person's attribute atom with the alibi implication for it. -/
def gen_direct_elimination (g : Game) (r : RandState) :
    Option (Formula × PropositionData) × RandState :=
  let possible_suspects := (check_solution_count g).2
  let innocent_suspects := possible_suspects.filter (fun n => n ≠ g.killer)
  if innocent_suspects = [] then (none, r)
  else
    let (po, r) := randChoice innocent_suspects r
    let (co, r) := randChoice ["material", "institution", "food"] r
    match po, co with
    | some person, some attr_cat =>
        let val := getAttr (g.ground_truth person) attr_cat
        let killer_sym := Formula.atom (killerKey person)
        match symGet g (attrKey person val) with
        | some person_attr_sym =>
            (some (Formula.and person_attr_sym
                (.implies person_attr_sym (.not killer_sym)),
              { prop_type := PROP_DIRECT_ELIMINATION,
                person := some person,
                attr_category := some attr_cat,
                value := some val }), r)
        | none => (none, r)
    | _, _ => (none, r)

/-- random.choices over the five templates with weights [40, 20, 20, 15, 5]:
the drawn natural is reduced mod the total weight and mapped through the
cumulative weights. -/
def weightedPropType (n : Nat) : String :=
  let m := n % 100
  if m < 40 then PROP_PERSON_AND_ATTRIBUTE
  else if m < 60 then PROP_PERSON_OR_PERSON
  else if m < 80 then PROP_PERSON_ATTRIBUTE_IMPLIES_NOT_KILLER
  else if m < 95 then PROP_COMPLEX_OR
  else PROP_DIRECT_ELIMINATION

/-- generate_clue_game.generate_proposition: weighted template draw, then the
drawn template's branch. -/
def generate_proposition (g : Game) (r : RandState) :
    Option (Formula × PropositionData) × RandState :=
  let (t, r) := randNext r
  let prop_type := weightedPropType t
  if prop_type = PROP_PERSON_AND_ATTRIBUTE then
    gen_person_and_attribute g r
  else if prop_type = PROP_PERSON_OR_PERSON then
    gen_person_or_person g r
  else if prop_type = PROP_PERSON_ATTRIBUTE_IMPLIES_NOT_KILLER then
    gen_person_attribute_implies_not_killer g r
  else if prop_type = PROP_COMPLEX_OR then
    gen_complex_or g r
  else if prop_type = PROP_DIRECT_ELIMINATION then
    gen_direct_elimination g r
  else (none, r)

/-- One candidate handling step of the convergence loop
(generate_clue_game.generate_game_until_unique_solution, lines 272-287):
a missing candidate or an infeasible candidate leaves the game unchanged;
a feasible candidate is appended to the knowledge base and to the proposition
record.  The boolean reports whether the candidate was accepted. -/
def attemptStep (g : Game) (cand : Option (Formula × PropositionData)) :
    Game × Bool :=
  match cand with
  | none => (g, false)
  | some (proposition_expr, prop_data) =>
      if is_feasible_with_proposition g proposition_expr then
        ({ g with
            knowledge_base := g.knowledge_base ++ [proposition_expr],
            propositions := g.propositions ++ [(proposition_expr, prop_data)] },
         true)
      else (g, false)

/-- Which branch of generate_game_until_unique_solution produced the return
value: the count == 1 branch, the count == 0 branch, or falling out of the
while loop after max_attempts attempts (carrying the suspect list the code
then recomputes). -/
inductive RunResult where
  | converged (name : String) : RunResult
  | noSolutions : RunResult
  | exhausted (possible : List String) : RunResult
deriving DecidableEq, Repr

/-- The string generate_game_until_unique_solution actually returns on each
branch: the identified name on count == 1, "NONE" on count == 0, and
possible[0] (or "UNKNOWN" when the suspect list is empty) on attempt-bound
exhaustion. -/
def resultString : RunResult → String
  | .converged name => name
  | .noSolutions => "NONE"
  | .exhausted possible => possible.headD "UNKNOWN"

/-- The while loop of generate_game_until_unique_solution: the remaining
attempt budget is the fuel; each iteration draws a candidate, runs the
feasibility oracle, appends on acceptance, and checks the suspect count. -/
def runLoop : Nat → Game → RandState → RunResult × Game
  | 0, g, _ => (.exhausted (check_solution_count g).2, g)
  | fuel + 1, g, r =>
      let (cand, r') := generate_proposition g r
      let (g', accepted) := attemptStep g cand
      if accepted then
        let (count, possible) := check_solution_count g'
        if count = 1 then (.converged (possible.headD ""), g')
        else if count = 0 then (.noSolutions, g')
        else runLoop fuel g' r'
      else runLoop fuel g' r'

/-- generate_clue_game.generate_game_until_unique_solution: the loop, with the
returned string.  The caller receives only the string; the final game state is
reached through the mutated argument. -/
def generate_game_until_unique_solution (g : Game) (r : RandState)
    (max_attempts : Nat) : String × Game :=
  let (res, g') := runLoop max_attempts g r
  (resultString res, g')

/-- Assign ground-truth activities to each name in order, drawing one value
per category in the source's field order (technology, place, company,
institution, food, material). -/
def assignActivities (g : Game) : List String → (String → PersonActivity) →
    RandState → (String → PersonActivity) × RandState
  | [], gt, r => (gt, r)
  | name :: rest, gt, r =>
      let (t, r) := randChoiceD g.technologies "" r
      let (p, r) := randChoiceD g.places "" r
      let (c, r) := randChoiceD g.companies "" r
      let (i, r) := randChoiceD g.institutions "" r
      let (f, r) := randChoiceD g.foods "" r
      let (m, r) := randChoiceD g.materials "" r
      let act : PersonActivity :=
        { technology := t, place := p, company := c,
          institution := i, food := f, material := m }
      assignActivities g rest (fun x => if x = name then act else gt x) r

/-- generate_clue_game.setup_scenario: draw each person's activities, draw the
killer, then append the exactly-one-killer constraints. -/
def setup_scenario (g : Game) (r : RandState) : Game × RandState :=
  let (gt, r) := assignActivities g g.names g.ground_truth r
  let (killer, r) := randChoiceD g.names "" r
  (setup_initial_constraints { g with ground_truth := gt, killer := killer },
   r)

/-- generate_clue_game.create_game: seeding the global PRNG when a seed is
given, building the symbol keys, and initializing the game state. -/
def create_game (config : GameConfig) (seed : Option Nat) (r : RandState) :
    Game × RandState :=
  let r := match seed with
    | some s => { seed := s, index := 0 }
    | none => r
  ({ names := config.names,
     technologies := config.technologies,
     places := config.places,
     companies := config.companies,
     institutions := config.institutions,
     foods := config.foods,
     materials := config.materials,
     symbolKeys := create_symbols config.names config.materials
       config.institutions config.foods config.places config.companies
       config.technologies,
     ground_truth := fun _ =>
       { technology := "", place := "", company := "",
         institution := "", food := "", material := "" },
     killer := "",
     propositions := [],
     knowledge_base := [] }, r)

/-- The serializable game record (generate_serialized_game.SerializedGame):
configuration snapshot, ground truth in name order, killer, and the ordered
proposition descriptions. -/
structure SerializedGame where
  seed : Nat
  killer : String
  names : List String
  technologies : List String
  places : List String
  companies : List String
  institutions : List String
  foods : List String
  materials : List String
  ground_truth : List (String × PersonActivity)
  propositions : List PropositionData
deriving DecidableEq, Repr

/-- generate_serialized_game.generate_test_case: create the game from the
configuration and seed, set up the scenario, run the convergence loop with the
default attempt bound of 1000, and serialize the result. -/
def generate_test_case (config : GameConfig) (seed : Nat) : SerializedGame :=
  let (g, r) := create_game config (some seed) { seed := 0, index := 0 }
  let (g, r) := setup_scenario g r
  let g := (generate_game_until_unique_solution g r 1000).2
  { seed := seed,
    killer := g.killer,
    names := g.names,
    technologies := g.technologies,
    places := g.places,
    companies := g.companies,
    institutions := g.institutions,
    foods := g.foods,
    materials := g.materials,
    ground_truth := g.names.map (fun n => (n, g.ground_truth n)),
    propositions := g.propositions.map (fun pd => pd.2) }

/-- The six attribute-category names, in the PersonActivity field order. -/
def allCategories : List String :=
  ["technology", "place", "company", "institution", "food", "material"]

/-- The ground-truth valuation of the atom space: every person's drawn
attribute atoms are true, exactly the true killer's is-killer atom is true,
every other atom is false. -/
def gtVal (g : Game) (key : String) : Bool :=
  (g.names.any (fun n => allCategories.any (fun c =>
    key == attrKey n (getAttr (g.ground_truth n) c)))) ||
  (key == killerKey g.killer)

/-- A concrete two-person game used by the witnesses: names A and B, one value
per attribute category, killer A, knowledge base holding exactly the
exactly-one-killer constraints. -/
def gW : Game :=
  { names := ["A", "B"],
    technologies := ["t"],
    places := ["p"],
    companies := ["c"],
    institutions := ["i"],
    foods := ["f"],
    materials := ["m"],
    symbolKeys := create_symbols ["A", "B"] ["m"] ["i"] ["f"] ["p"] ["c"] ["t"],
    ground_truth := fun _ =>
      { technology := "t", place := "p", company := "c",
        institution := "i", food := "f", material := "m" },
    killer := "A",
    propositions := [],
    knowledge_base := initial_constraints ["A", "B"] }

/-- A small concrete configuration used by the determinism witness. -/
def cfgW : GameConfig :=
  { names := ["A", "B"],
    technologies := ["t"],
    places := ["p"],
    companies := ["c"],
    institutions := ["i"],
    foods := ["f"],
    materials := ["m"] }

theorem eval_listAnd (v : String → Bool) (l : List Formula) :
    (listAnd l).eval v = l.all (fun f => f.eval v) := by
  induction l with
  | nil => rfl
  | cons f rest ih => simp [listAnd, Formula.eval, List.all_cons] at ih ⊢; rw [ih]

theorem eval_listOr (v : String → Bool) (l : List Formula) :
    (listOr l).eval v = l.any (fun f => f.eval v) := by
  induction l with
  | nil => rfl
  | cons f rest ih => simp [listOr, Formula.eval, List.any_cons] at ih ⊢; rw [ih]

theorem eval_congr_atoms (f : Formula) (v w : String → Bool)
    (h : ∀ a ∈ f.atoms, w a = v a) : f.eval w = f.eval v := by
  induction f with
  | tru => rfl
  | fls => rfl
  | atom k => exact h k (by simp [Formula.atoms])
  | not f ih => simp only [Formula.eval]; rw [ih h]
  | and f g ihf ihg =>
      simp only [Formula.atoms] at h
      simp only [Formula.eval]
      rw [ihf (fun a ha => h a (List.mem_append_left _ ha)),
          ihg (fun a ha => h a (List.mem_append_right _ ha))]
  | or f g ihf ihg =>
      simp only [Formula.atoms] at h
      simp only [Formula.eval]
      rw [ihf (fun a ha => h a (List.mem_append_left _ ha)),
          ihg (fun a ha => h a (List.mem_append_right _ ha))]
  | implies f g ihf ihg =>
      simp only [Formula.atoms] at h
      simp only [Formula.eval]
      rw [ihf (fun a ha => h a (List.mem_append_left _ ha)),
          ihg (fun a ha => h a (List.mem_append_right _ ha))]

theorem exists_allVals_agree (L : List String) (v : String → Bool) :
    ∃ w ∈ allVals L, ∀ a ∈ L, w a = v a := by
  induction L with
  | nil => exact ⟨fun _ => false, by simp [allVals], by simp⟩
  | cons a rest ih =>
      obtain ⟨w, hwmem, hw⟩ := ih
      cases hva : v a with
      | true =>
          refine ⟨fun k => if k = a then true else w k, ?_, ?_⟩
          · simp only [allVals, List.mem_flatMap]
            exact ⟨w, hwmem, by simp⟩
          · intro b hb
            rcases List.mem_cons.mp hb with hb | hb
            · simp [hb, hva]
            · by_cases hba : b = a
              · simp [hba, hva]
              · simp [hba, hw b hb]
      | false =>
          refine ⟨fun k => if k = a then false else w k, ?_, ?_⟩
          · simp only [allVals, List.mem_flatMap]
            exact ⟨w, hwmem, by simp⟩
          · intro b hb
            rcases List.mem_cons.mp hb with hb | hb
            · simp [hb, hva]
            · by_cases hba : b = a
              · simp [hba, hva]
              · simp [hba, hw b hb]

theorem satisfiable_iff_exists (f : Formula) :
    satisfiable f = true ↔ ∃ v, f.eval v = true := by
  constructor
  · intro h
    obtain ⟨v, _, hv⟩ := List.any_eq_true.mp h
    exact ⟨v, hv⟩
  · rintro ⟨v, hv⟩
    obtain ⟨w, hwmem, hw⟩ := exists_allVals_agree f.atoms v
    refine List.any_eq_true.mpr ⟨w, hwmem, ?_⟩
    rw [eval_congr_atoms f v w hw]
    exact hv

theorem killerKey_inj {a b : String} (h : killerKey a = killerKey b) :
    a = b := by
  have hd := congrArg String.data h
  simp only [killerKey, String.data_append] at hd
  exact String.ext (List.append_cancel_right hd)

theorem sat_and_listAnd_atom (kb : List Formula) (key : String) :
    satisfiable (.and (listAnd kb) (.atom key)) = true ↔
      ∃ v : String → Bool, (∀ f ∈ kb, f.eval v = true) ∧ v key = true := by
  rw [satisfiable_iff_exists]
  constructor
  · rintro ⟨v, hv⟩
    simp only [Formula.eval, Bool.and_eq_true, eval_listAnd,
      List.all_eq_true] at hv
    exact ⟨v, hv.1, hv.2⟩
  · rintro ⟨v, hkb, hk⟩
    refine ⟨v, ?_⟩
    simp only [Formula.eval, Bool.and_eq_true, eval_listAnd, List.all_eq_true]
    exact ⟨hkb, hk⟩

theorem is_feasible_iff (g : Game) (p : Formula) :
    is_feasible_with_proposition g p = true ↔
      ∃ v : String → Bool, (∀ f ∈ g.knowledge_base, f.eval v = true) ∧
        p.eval v = true ∧ v (killerKey g.killer) = true := by
  unfold is_feasible_with_proposition
  rw [sat_and_listAnd_atom]
  constructor
  · rintro ⟨v, hall, hk⟩
    rw [List.forall_mem_append, List.forall_mem_singleton] at hall
    exact ⟨v, hall.1, hall.2, hk⟩
  · rintro ⟨v, hkb, hp, hk⟩
    refine ⟨v, ?_, hk⟩
    rw [List.forall_mem_append, List.forall_mem_singleton]
    exact ⟨hkb, hp⟩

theorem attemptStep_false (g : Game) (cand : Option (Formula × PropositionData))
    (h : (attemptStep g cand).2 = false) : (attemptStep g cand).1 = g := by
  cases cand with
  | none => rfl
  | some pd =>
      obtain ⟨p, d⟩ := pd
      simp only [attemptStep] at h ⊢
      split at h <;> split <;> simp_all

theorem attemptStep_true (g : Game) (cand : Option (Formula × PropositionData))
    (h : (attemptStep g cand).2 = true) :
    ∃ p d, cand = some (p, d) ∧ is_feasible_with_proposition g p = true ∧
      (attemptStep g cand).1 =
        { g with knowledge_base := g.knowledge_base ++ [p],
                 propositions := g.propositions ++ [(p, d)] } := by
  cases cand with
  | none => simp [attemptStep] at h
  | some pd =>
      obtain ⟨p, d⟩ := pd
      refine ⟨p, d, rfl, ?_, ?_⟩ <;> simp only [attemptStep] at h ⊢ <;>
        split at h
      · assumption
      · simp at h
      · split
        · rfl
        · simp_all
      · simp at h

theorem check_fst_eq_length (g : Game) :
    (check_solution_count g).1 = (check_solution_count g).2.length := by
  unfold check_solution_count
  split <;> simp

theorem check_mem_names {g : Game} {n : String}
    (h : n ∈ (check_solution_count g).2) : n ∈ g.names := by
  unfold check_solution_count at h
  split at h
  · exact h
  · exact (List.mem_filter.mp h).1

theorem mem_check_of_kb_ne {g : Game} (hkb : g.knowledge_base ≠ [])
    (n : String) :
    n ∈ (check_solution_count g).2 ↔ n ∈ g.names ∧
      satisfiable (.and (listAnd g.knowledge_base) (.atom (killerKey n))) =
        true := by
  unfold check_solution_count
  split
  · exact absurd (by assumption) hkb
  · exact List.mem_filter

theorem killer_mem_after_accept (g : Game) (p : Formula) (d : PropositionData)
    (hk : g.killer ∈ g.names)
    (hfeas : is_feasible_with_proposition g p = true) :
    g.killer ∈ (check_solution_count
      { g with knowledge_base := g.knowledge_base ++ [p],
               propositions := g.propositions ++ [(p, d)] }).2 := by
  rw [mem_check_of_kb_ne (by simp)]
  exact ⟨hk, hfeas⟩

/-- C1: whenever the convergence loop returns through the count == 1 branch
(the `converged` outcome), the single remaining suspect it returns is the
game's recorded true killer. -/
theorem converged_name_is_true_killer (fuel : Nat) (g : Game) (r : RandState)
    (name : String) (hk : g.killer ∈ g.names)
    (h : (runLoop fuel g r).1 = .converged name) : name = g.killer := by
  induction fuel generalizing g r with
  | zero => simp [runLoop] at h
  | succ fuel ih =>
      simp only [runLoop] at h
      cases hacc : (attemptStep g (generate_proposition g r).1).2 with
      | false =>
          rw [hacc] at h
          simp only [Bool.false_eq_true, if_false] at h
          rw [attemptStep_false _ _ hacc] at h
          exact ih g (generate_proposition g r).2 hk h
      | true =>
          rw [hacc] at h
          simp only [if_true] at h
          obtain ⟨p, d, hcand, hfeas, hg2⟩ := attemptStep_true _ _ hacc
          by_cases h1 :
              (check_solution_count (attemptStep g
                (generate_proposition g r).1).1).1 = 1
          · rw [if_pos h1] at h
            simp only [RunResult.converged.injEq] at h
            subst h
            have hmem : g.killer ∈ (check_solution_count (attemptStep g
                (generate_proposition g r).1).1).2 := by
              rw [hg2]
              exact killer_mem_after_accept g p d hk hfeas
            have hlen : (check_solution_count (attemptStep g
                (generate_proposition g r).1).1).2.length = 1 := by
              rw [← check_fst_eq_length]
              exact h1
            obtain ⟨x, hx⟩ := List.length_eq_one.mp hlen
            rw [hx] at hmem ⊢
            simp only [List.mem_singleton] at hmem
            simp [hmem]
          · rw [if_neg h1] at h
            by_cases h0 :
                (check_solution_count (attemptStep g
                  (generate_proposition g r).1).1).1 = 0
            · rw [if_pos h0] at h
              simp at h
            · rw [if_neg h0] at h
              have hrec := ih (attemptStep g (generate_proposition g r).1).1
                (generate_proposition g r).2 (by rw [hg2]; exact hk) h
              rw [hg2] at hrec
              exact hrec

set_option maxRecDepth 20000 in
theorem converged_name_is_true_killer_witness : "A" = gW.killer :=
  converged_name_is_true_killer 1 gW ⟨95, 0⟩ "A" (by decide) (by decide)

theorem prefix_antisymm {α : Type} {l₁ l₂ : List α} (h1 : l₁ <+: l₂)
    (h2 : l₂ <+: l₁) : l₁ = l₂ :=
  h1.eq_of_length (Nat.le_antisymm h1.length_le h2.length_le)

theorem runLoop_kb_extends (fuel : Nat) (g : Game) (r : RandState) :
    g.knowledge_base <+: (runLoop fuel g r).2.knowledge_base := by
  induction fuel generalizing g r with
  | zero => simp [runLoop]
  | succ fuel ih =>
      simp only [runLoop]
      cases hacc : (attemptStep g (generate_proposition g r).1).2 with
      | false =>
          rw [if_neg Bool.false_ne_true, attemptStep_false _ _ hacc]
          exact ih g (generate_proposition g r).2
      | true =>
          rw [if_pos rfl]
          obtain ⟨p, d, hcand, hfeas, hg2⟩ := attemptStep_true _ _ hacc
          rw [hg2]
          split
          · exact List.prefix_append _ _
          · split
            · exact List.prefix_append _ _
            · exact List.IsPrefix.trans (List.prefix_append _ _)
                (ih { g with
                  knowledge_base := g.knowledge_base ++ [p],
                  propositions := g.propositions ++ [(p, d)] }
                  (generate_proposition g r).2)

theorem mem_notBothClauses {names : List String} {c : Formula}
    (h : c ∈ notBothClauses names) :
    ∃ a b, a ∈ names ∧ b ∈ names ∧
      c = .not (.and (.atom (killerKey a)) (.atom (killerKey b))) ∧
      (names.Nodup → a ≠ b) := by
  induction names with
  | nil => simp [notBothClauses] at h
  | cons n rest ih =>
      simp only [notBothClauses, List.mem_append, List.mem_map] at h
      rcases h with ⟨m, hm, rfl⟩ | h
      · refine ⟨n, m, List.mem_cons_self _ _, List.mem_cons_of_mem _ hm,
          rfl, ?_⟩
        intro hnd heq
        exact (List.nodup_cons.mp hnd).1 (heq ▸ hm)
      · obtain ⟨a, b, ha, hb, hc, hne⟩ := ih h
        exact ⟨a, b, List.mem_cons_of_mem _ ha, List.mem_cons_of_mem _ hb,
          hc, fun hnd => hne (List.nodup_cons.mp hnd).2⟩

theorem initial_constraints_killer_sat {names : List String} {killer : String}
    (hnd : names.Nodup) (hk : killer ∈ names) :
    satisfiable (.and (listAnd (initial_constraints names))
      (.atom (killerKey killer))) = true := by
  rw [sat_and_listAnd_atom]
  refine ⟨fun k => k == killerKey killer, ?_, by simp⟩
  intro f hf
  simp only [initial_constraints, List.mem_cons] at hf
  rcases hf with rfl | hf
  · rw [eval_listOr]
    refine List.any_eq_true.mpr ⟨Formula.atom (killerKey killer),
      List.mem_map.mpr ⟨killer, hk, rfl⟩, by simp [Formula.eval]⟩
  · obtain ⟨a, b, _, _, rfl, hne⟩ := mem_notBothClauses hf
    have hab := hne hnd
    by_cases hA : a = killer
    · have hB : b ≠ killer := fun hh => hab (hA.trans hh.symm)
      have : (killerKey b == killerKey killer) = false :=
        beq_eq_false_iff_ne.mpr (fun hh => hB (killerKey_inj hh))
      simp [Formula.eval, this]
    · have : (killerKey a == killerKey killer) = false :=
        beq_eq_false_iff_ne.mpr (fun hh => hA (killerKey_inj hh))
      simp [Formula.eval, this]

theorem runLoop_prefix_killer_sat (fuel : Nat) (g : Game) (r : RandState)
    (hk : g.killer ∈ g.names)
    (hsat : satisfiable (.and (listAnd g.knowledge_base)
      (.atom (killerKey g.killer))) = true) :
    ∀ l, l <+: (runLoop fuel g r).2.knowledge_base →
      g.knowledge_base <+: l →
      satisfiable (.and (listAnd l) (.atom (killerKey g.killer))) = true := by
  induction fuel generalizing g r with
  | zero =>
      intro l h1 h2
      simp only [runLoop] at h1
      rw [prefix_antisymm h2 h1] at hsat
      exact hsat
  | succ fuel ih =>
      intro l h1 h2
      simp only [runLoop] at h1
      cases hacc : (attemptStep g (generate_proposition g r).1).2 with
      | false =>
          rw [hacc] at h1
          simp only [Bool.false_eq_true, if_false] at h1
          rw [attemptStep_false _ _ hacc] at h1
          exact ih g (generate_proposition g r).2 hk hsat l h1 h2
      | true =>
          rw [hacc] at h1
          simp only [if_true] at h1
          obtain ⟨p, d, hcand, hfeas, hg2⟩ := attemptStep_true _ _ hacc
          rw [hg2] at h1
          have hterm : ∀ hl : l <+: g.knowledge_base ++ [p],
              satisfiable (.and (listAnd l)
                (.atom (killerKey g.killer))) = true := by
            intro hl
            rcases List.prefix_concat_iff.mp hl with rfl | hl2
            · exact hfeas
            · rw [prefix_antisymm h2 hl2] at hsat
              exact hsat
          split at h1
          · exact hterm h1
          · split at h1
            · exact hterm h1
            · have hg2pre := runLoop_kb_extends fuel
                { g with knowledge_base := g.knowledge_base ++ [p],
                         propositions := g.propositions ++ [(p, d)] }
                (generate_proposition g r).2
              rcases List.prefix_or_prefix_of_prefix h1 hg2pre with hc | hc
              · exact hterm hc
              · exact ih
                  { g with knowledge_base := g.knowledge_base ++ [p],
                           propositions := g.propositions ++ [(p, d)] }
                  (generate_proposition g r).2 hk hfeas l h1 hc

/-- C2: monotonic non-exclusion.  Starting from a knowledge base holding
exactly the exactly-one-killer base constraints, every prefix of the sequence
of formulas the convergence loop has accepted (every knowledge-base state the
run passes through, since the knowledge base grows by one formula per accept)
keeps the conjunction with the true killer's is-killer atom satisfiable. -/
theorem accepted_prefixes_keep_killer_sat (fuel : Nat) (g : Game)
    (r : RandState) (hnd : g.names.Nodup) (hk : g.killer ∈ g.names)
    (hkb : g.knowledge_base = initial_constraints g.names) :
    ∀ l, l <+: (runLoop fuel g r).2.knowledge_base →
      g.knowledge_base <+: l →
      satisfiable (.and (listAnd l) (.atom (killerKey g.killer))) = true := by
  apply runLoop_prefix_killer_sat fuel g r hk
  rw [hkb]
  exact initial_constraints_killer_sat hnd hk

set_option maxRecDepth 20000 in
theorem accepted_prefixes_keep_killer_sat_witness :
    satisfiable (.and (listAnd gW.knowledge_base)
      (.atom (killerKey gW.killer))) = true :=
  accepted_prefixes_keep_killer_sat 1 gW ⟨95, 0⟩ (by decide) (by decide)
    (by rfl) gW.knowledge_base (by decide) (by decide)

/-- C3: the feasibility oracle returns true exactly when the conjunction of
the current knowledge base, the candidate formula, and the true killer's
is-killer atom is satisfiable; in particular a candidate that negates the true
killer's is-killer atom is reported infeasible whatever the knowledge base
holds. -/
theorem feasibility_oracle_iff_sat (g : Game) (p : Formula) :
    (is_feasible_with_proposition g p = true ↔
      ∃ v : String → Bool, (∀ f ∈ g.knowledge_base, f.eval v = true) ∧
        p.eval v = true ∧ v (killerKey g.killer) = true) ∧
    is_feasible_with_proposition g
      (.not (.atom (killerKey g.killer))) = false := by
  refine ⟨is_feasible_iff g p, ?_⟩
  cases hq : is_feasible_with_proposition g
      (.not (.atom (killerKey g.killer))) with
  | false => rfl
  | true =>
      obtain ⟨v, _, hp, hkv⟩ := (is_feasible_iff g _).mp hq
      simp [Formula.eval, hkv] at hp

/-- C7: the suspect counter returns as count the length of its suspect list,
keeps exactly the names whose is-killer atom is jointly satisfiable with the
knowledge base, and on an empty knowledge base returns the full name list and
its length (trivially, without a solver call: an empty conjunction is
satisfied by any valuation). -/
theorem check_solution_count_spec (g : Game) :
    (check_solution_count g).1 = (check_solution_count g).2.length ∧
    (∀ n, n ∈ (check_solution_count g).2 ↔ n ∈ g.names ∧
      ∃ v : String → Bool, (∀ f ∈ g.knowledge_base, f.eval v = true) ∧
        v (killerKey n) = true) ∧
    (g.knowledge_base = [] →
      check_solution_count g = (g.names.length, g.names)) := by
  refine ⟨check_fst_eq_length g, ?_, ?_⟩
  · intro n
    by_cases hkb : g.knowledge_base = []
    · simp only [check_solution_count, hkb, if_pos]
      constructor
      · intro hn
        exact ⟨hn, ⟨fun _ => true, by simp [hkb], rfl⟩⟩
      · rintro ⟨hn, _⟩
        exact hn
    · rw [mem_check_of_kb_ne hkb n, sat_and_listAnd_atom]
  · intro hkb
    simp [check_solution_count, hkb]

/-- C4 (code defect): on attempt-bound exhaustion the loop returns
possible[0], an ordinary remaining-suspect name.  On the concrete game gW
with an exhausted budget the returned string is the plain name "A", a member
of the name list, and it is byte-identical to the string a converged run
identifying "A" would return, so the caller cannot distinguish the fault from
a converged identification. -/
theorem exhaustion_returns_indistinguishable_name :
    (runLoop 0 gW ⟨0, 0⟩).1 = .exhausted ["A", "B"] ∧
    (generate_game_until_unique_solution gW ⟨0, 0⟩ 0).1 = "A" ∧
    "A" ∈ gW.names ∧
    resultString (.converged "A") =
      (generate_game_until_unique_solution gW ⟨0, 0⟩ 0).1 := by
  refine ⟨by decide, by decide, by decide, by decide⟩

/-- C8: determinism.  The embedding threads the seed-determined PRNG stream
explicitly through the whole pipeline, so the serialized game record is a
function of the configuration and the seed alone: two runs with the same seed
and the same configuration produce identical records. -/
theorem same_seed_same_record (config : GameConfig) (s1 s2 : Nat)
    (h : s1 = s2) :
    generate_test_case config s1 = generate_test_case config s2 := by
  rw [h]

theorem same_seed_same_record_witness :
    (0 : Nat) = 0 ∧ generate_test_case cfgW 0 = generate_test_case cfgW 0 :=
  ⟨rfl, same_seed_same_record cfgW 0 0 rfl⟩

/-- C9: the feasibility oracle mutates no game state and rejection is atomic.
The oracle itself is a pure function of the game; at the controller level, a
candidate whose check is false leaves the game exactly as it was (the step
returns the untouched state), and only after a true result are the candidate
formula and its description appended — with ground truth and killer
unchanged. -/
theorem oracle_no_mutation_and_atomic_reject (g : Game) (p : Formula)
    (d : PropositionData) :
    (is_feasible_with_proposition g p = false →
      attemptStep g (some (p, d)) = (g, false)) ∧
    (is_feasible_with_proposition g p = true →
      (attemptStep g (some (p, d))).2 = true ∧
      (attemptStep g (some (p, d))).1.knowledge_base =
        g.knowledge_base ++ [p] ∧
      (attemptStep g (some (p, d))).1.propositions =
        g.propositions ++ [(p, d)] ∧
      (attemptStep g (some (p, d))).1.ground_truth = g.ground_truth ∧
      (attemptStep g (some (p, d))).1.killer = g.killer) := by
  constructor
  · intro hf
    simp [attemptStep, hf]
  · intro hf
    simp [attemptStep, hf]

set_option maxRecDepth 20000 in
theorem oracle_no_mutation_and_atomic_reject_witness :
    attemptStep gW (some (Formula.not (.atom (killerKey gW.killer)),
      { prop_type := "person_and_attribute" })) = (gW, false) :=
  (oracle_no_mutation_and_atomic_reject gW
    (Formula.not (.atom (killerKey gW.killer)))
    { prop_type := "person_and_attribute" }).1 (by decide)

theorem randChoice_mem {α : Type} {l : List α} {r r' : RandState} {a : α}
    (h : randChoice l r = (some a, r')) : a ∈ l := by
  simp only [randChoice, randNext] at h
  have h1 := congrArg Prod.fst h
  simp only at h1
  exact List.get?_mem h1

theorem getAttr_material (a : PersonActivity) :
    getAttr a "material" = a.material := by
  simp [getAttr]

theorem getAttr_food (a : PersonActivity) : getAttr a "food" = a.food := by
  simp [getAttr]

theorem getAttr_institution (a : PersonActivity) :
    getAttr a "institution" = a.institution := by
  simp [getAttr]

theorem threeCats_sub_fourCats {c : String}
    (h : c ∈ ["material", "institution", "food"]) :
    c ∈ ["material", "institution", "food", "place"] := by
  simp only [List.mem_cons, List.not_mem_nil, or_false] at h ⊢
  tauto

theorem fourCats_sub_allCategories {c : String}
    (h : c ∈ ["material", "institution", "food", "place"]) :
    c ∈ allCategories := by
  simp only [allCategories, List.mem_cons, List.not_mem_nil, or_false] at h ⊢
  tauto

theorem weightedPropType_cases (n : Nat) :
    weightedPropType n = PROP_PERSON_AND_ATTRIBUTE ∨
    weightedPropType n = PROP_PERSON_OR_PERSON ∨
    weightedPropType n = PROP_PERSON_ATTRIBUTE_IMPLIES_NOT_KILLER ∨
    weightedPropType n = PROP_COMPLEX_OR ∨
    weightedPropType n = PROP_DIRECT_ELIMINATION := by
  simp only [weightedPropType]
  split_ifs <;> simp

theorem generate_proposition_branch (g : Game) (r : RandState) :
    generate_proposition g r = gen_person_and_attribute g (randNext r).2 ∨
    generate_proposition g r = gen_person_or_person g (randNext r).2 ∨
    generate_proposition g r =
      gen_person_attribute_implies_not_killer g (randNext r).2 ∨
    generate_proposition g r = gen_complex_or g (randNext r).2 ∨
    generate_proposition g r = gen_direct_elimination g (randNext r).2 := by
  have hstruct : generate_proposition g r =
      (if weightedPropType (randNext r).1 = PROP_PERSON_AND_ATTRIBUTE then
        gen_person_and_attribute g (randNext r).2
      else if weightedPropType (randNext r).1 = PROP_PERSON_OR_PERSON then
        gen_person_or_person g (randNext r).2
      else if weightedPropType (randNext r).1 =
          PROP_PERSON_ATTRIBUTE_IMPLIES_NOT_KILLER then
        gen_person_attribute_implies_not_killer g (randNext r).2
      else if weightedPropType (randNext r).1 = PROP_COMPLEX_OR then
        gen_complex_or g (randNext r).2
      else if weightedPropType (randNext r).1 = PROP_DIRECT_ELIMINATION then
        gen_direct_elimination g (randNext r).2
      else (none, (randNext r).2)) := rfl
  rw [hstruct]
  rcases weightedPropType_cases (randNext r).1 with ht | ht | ht | ht | ht <;>
    rw [ht]
  · left
    rw [if_pos rfl]
  · right; left
    rw [if_neg (by decide), if_pos rfl]
  · right; right; left
    rw [if_neg (by decide), if_neg (by decide), if_pos rfl]
  · right; right; right; left
    rw [if_neg (by decide), if_neg (by decide), if_neg (by decide),
      if_pos rfl]
  · right; right; right; right
    rw [if_neg (by decide), if_neg (by decide), if_neg (by decide),
      if_neg (by decide), if_pos rfl]

theorem gen_person_and_attribute_shape {g : Game} {r r' : RandState}
    {f : Formula} {d : PropositionData}
    (h : gen_person_and_attribute g r = (some (f, d), r')) :
    ∃ person attr_category, person ∈ g.names ∧
      attr_category ∈ ["material", "institution", "food", "place"] ∧
      f = .atom (attrKey person
        (getAttr (g.ground_truth person) attr_category)) ∧
      d = { prop_type := PROP_PERSON_AND_ATTRIBUTE,
            person := some person,
            attr_category := some attr_category,
            value := some (getAttr (g.ground_truth person)
              attr_category) } := by
  rcases hpo : randChoice g.names r with ⟨po, r1⟩
  rcases hco : randChoice ["material", "institution", "food", "place"] r1
    with ⟨co, r2⟩
  simp only [gen_person_and_attribute, hpo, hco] at h
  cases po with
  | none => simp at h
  | some person =>
      cases co with
      | none => simp at h
      | some attr_category =>
          simp only [] at h
          split at h
          · simp only [Prod.mk.injEq, Option.some.injEq] at h
            obtain ⟨⟨hf, hd⟩, -⟩ := h
            exact ⟨person, attr_category, randChoice_mem hpo,
              randChoice_mem hco, hf.symm, hd.symm⟩
          · simp at h

theorem symGet_some {g : Game} {k : String} {f : Formula}
    (h : symGet g k = some f) : f = .atom k := by
  simp only [symGet] at h
  split at h
  · exact (Option.some.inj h).symm
  · simp at h

theorem gen_person_or_person_shape {g : Game} {r r' : RandState}
    {f : Formula} {d : PropositionData}
    (h : gen_person_or_person g r = (some (f, d), r')) :
    ∃ person1 person2 attr1_cat attr2_cat,
      person1 ∈ g.names ∧ person2 ∈ g.names ∧ person2 ≠ person1 ∧
      attr1_cat ∈ ["material", "institution", "food"] ∧
      attr2_cat ∈ ["material", "institution", "food"] ∧
      f = .or
        (.atom (attrKey person1 (getAttr (g.ground_truth person1) attr1_cat)))
        (.atom (attrKey person2
          (getAttr (g.ground_truth person2) attr2_cat))) ∧
      d = { prop_type := PROP_PERSON_OR_PERSON,
            person1 := some person1,
            person2 := some person2,
            attr1_cat := some attr1_cat,
            attr2_cat := some attr2_cat,
            val1 := some (getAttr (g.ground_truth person1) attr1_cat),
            val2 := some (getAttr (g.ground_truth person2) attr2_cat) } := by
  rcases hp1 : randChoice g.names r with ⟨p1o, r1⟩
  simp only [gen_person_or_person, hp1] at h
  cases p1o with
  | none => simp at h
  | some person1 =>
      rcases hp2 : randChoice (g.names.filter (fun n => n ≠ person1)) r1
        with ⟨p2o, r2⟩
      rcases hc1 : randChoice ["material", "institution", "food"] r2
        with ⟨c1o, r3⟩
      rcases hc2 : randChoice ["material", "institution", "food"] r3
        with ⟨c2o, r4⟩
      simp only [hp2, hc1, hc2] at h
      cases p2o with
      | none => simp at h
      | some person2 =>
          cases c1o with
          | none => simp at h
          | some attr1_cat =>
              cases c2o with
              | none => simp at h
              | some attr2_cat =>
                  rcases hs1 : symGet g (attrKey person1
                      (getAttr (g.ground_truth person1) attr1_cat))
                    with - | sym1
                  · simp only [hs1] at h
                    simp at h
                  · rcases hs2 : symGet g (attrKey person2
                        (getAttr (g.ground_truth person2) attr2_cat))
                      with - | sym2
                    · simp only [hs1, hs2] at h
                      simp at h
                    · simp only [hs1, hs2] at h
                      simp only [Prod.mk.injEq, Option.some.injEq] at h
                      obtain ⟨⟨hf, hd⟩, -⟩ := h
                      have hmem2 := List.mem_filter.mp (randChoice_mem hp2)
                      refine ⟨person1, person2, attr1_cat, attr2_cat,
                        randChoice_mem hp1, hmem2.1, by simpa using hmem2.2,
                        randChoice_mem hc1, randChoice_mem hc2, ?_, hd.symm⟩
                      rw [← hf, symGet_some hs1, symGet_some hs2]

theorem gen_person_attribute_implies_not_killer_shape {g : Game}
    {r r' : RandState} {f : Formula} {d : PropositionData}
    (h : gen_person_attribute_implies_not_killer g r = (some (f, d), r')) :
    ∃ person attr_cat, person ∈ g.names ∧ person ≠ g.killer ∧
      attr_cat ∈ ["material", "institution", "food"] ∧
      f = .implies
        (.atom (attrKey person (getAttr (g.ground_truth person) attr_cat)))
        (.not (.atom (killerKey person))) ∧
      d = { prop_type := PROP_PERSON_ATTRIBUTE_IMPLIES_NOT_KILLER,
            person := some person,
            attr_category := some attr_cat,
            value := some (getAttr (g.ground_truth person) attr_cat) } := by
  simp only [gen_person_attribute_implies_not_killer] at h
  split at h
  · simp at h
  · rcases hpo : randChoice (g.names.filter (fun n => n ≠ g.killer)) r
      with ⟨po, r1⟩
    rcases hco : randChoice ["material", "institution", "food"] r1
      with ⟨co, r2⟩
    simp only [hpo, hco] at h
    cases po with
    | none => simp at h
    | some person =>
        cases co with
        | none => simp at h
        | some attr_cat =>
            rcases hs : symGet g (attrKey person
                (getAttr (g.ground_truth person) attr_cat)) with - | sym
            · simp only [hs] at h
              simp at h
            · simp only [hs] at h
              simp only [Prod.mk.injEq, Option.some.injEq] at h
              obtain ⟨⟨hf, hd⟩, -⟩ := h
              have hmem := List.mem_filter.mp (randChoice_mem hpo)
              refine ⟨person, attr_cat, hmem.1, by simpa using hmem.2,
                randChoice_mem hco, ?_, hd.symm⟩
              rw [← hf, symGet_some hs]

theorem gen_complex_or_shape {g : Game} {r r' : RandState}
    {f : Formula} {d : PropositionData}
    (h : gen_complex_or g r = (some (f, d), r')) :
    ∃ person1 person2, person1 ∈ g.names ∧ person2 ∈ g.names ∧
      person2 ≠ person1 ∧
      f = .or (.atom (attrKey person1 (g.ground_truth person1).material))
        (.and (.atom (attrKey person2 (g.ground_truth person2).food))
          (.atom (attrKey person2 (g.ground_truth person2).institution))) ∧
      d = { prop_type := PROP_COMPLEX_OR,
            person1 := some person1,
            person2 := some person2,
            mat1 := some (g.ground_truth person1).material,
            food2 := some (g.ground_truth person2).food,
            inst2 := some (g.ground_truth person2).institution } := by
  rcases hp1 : randChoice g.names r with ⟨p1o, r1⟩
  simp only [gen_complex_or, hp1] at h
  cases p1o with
  | none => simp at h
  | some person1 =>
      rcases hp2 : randChoice (g.names.filter (fun n => n ≠ person1)) r1
        with ⟨p2o, r2⟩
      simp only [hp2] at h
      cases p2o with
      | none => simp at h
      | some person2 =>
          rcases hs1 : symGet g (attrKey person1
              (g.ground_truth person1).material) with - | sym1
          · simp only [hs1] at h
            simp at h
          · rcases hs2 : symGet g (attrKey person2
                (g.ground_truth person2).food) with - | sym2
            · simp only [hs1, hs2] at h
              simp at h
            · rcases hs3 : symGet g (attrKey person2
                  (g.ground_truth person2).institution) with - | sym3
              · simp only [hs1, hs2, hs3] at h
                simp at h
              · simp only [hs1, hs2, hs3] at h
                simp only [Prod.mk.injEq, Option.some.injEq] at h
                obtain ⟨⟨hf, hd⟩, -⟩ := h
                have hmem2 := List.mem_filter.mp (randChoice_mem hp2)
                refine ⟨person1, person2, randChoice_mem hp1, hmem2.1,
                  by simpa using hmem2.2, ?_, hd.symm⟩
                rw [← hf, symGet_some hs1, symGet_some hs2, symGet_some hs3]

theorem gen_direct_elimination_shape {g : Game} {r r' : RandState}
    {f : Formula} {d : PropositionData}
    (h : gen_direct_elimination g r = (some (f, d), r')) :
    ∃ person attr_cat, person ∈ (check_solution_count g).2 ∧
      person ≠ g.killer ∧
      attr_cat ∈ ["material", "institution", "food"] ∧
      f = .and
        (.atom (attrKey person (getAttr (g.ground_truth person) attr_cat)))
        (.implies
          (.atom (attrKey person (getAttr (g.ground_truth person) attr_cat)))
          (.not (.atom (killerKey person)))) ∧
      d = { prop_type := PROP_DIRECT_ELIMINATION,
            person := some person,
            attr_category := some attr_cat,
            value := some (getAttr (g.ground_truth person) attr_cat) } := by
  simp only [gen_direct_elimination] at h
  split at h
  · simp at h
  · rcases hpo : randChoice
        ((check_solution_count g).2.filter (fun n => n ≠ g.killer)) r
      with ⟨po, r1⟩
    rcases hco : randChoice ["material", "institution", "food"] r1
      with ⟨co, r2⟩
    simp only [hpo, hco] at h
    cases po with
    | none => simp at h
    | some person =>
        cases co with
        | none => simp at h
        | some attr_cat =>
            rcases hs : symGet g (attrKey person
                (getAttr (g.ground_truth person) attr_cat)) with - | sym
            · simp only [hs] at h
              simp at h
            · simp only [hs] at h
              simp only [Prod.mk.injEq, Option.some.injEq] at h
              obtain ⟨⟨hf, hd⟩, -⟩ := h
              have hmem := List.mem_filter.mp (randChoice_mem hpo)
              refine ⟨person, attr_cat, hmem.1, by simpa using hmem.2,
                randChoice_mem hco, ?_, hd.symm⟩
              rw [← hf, symGet_some hs]

theorem gtVal_attr_true {g : Game} {p c : String} (hp : p ∈ g.names)
    (hc : c ∈ allCategories) :
    gtVal g (attrKey p (getAttr (g.ground_truth p) c)) = true := by
  have h1 : (g.names.any fun n => allCategories.any fun cc =>
      attrKey p (getAttr (g.ground_truth p) c) ==
        attrKey n (getAttr (g.ground_truth n) cc)) = true :=
    List.any_eq_true.mpr ⟨p, hp, List.any_eq_true.mpr ⟨c, hc, by simp⟩⟩
  simp [gtVal, h1]

theorem gtVal_killerKey_false {g : Game} {p : String} (hp : p ∈ g.names)
    (hpk : p ≠ g.killer)
    (hsep : ∀ q ∈ g.names, ∀ c ∈ allCategories, ∀ nm ∈ g.names,
      attrKey q (getAttr (g.ground_truth q) c) ≠ killerKey nm) :
    gtVal g (killerKey p) = false := by
  cases hb : gtVal g (killerKey p) with
  | false => rfl
  | true =>
      exfalso
      simp only [gtVal, Bool.or_eq_true, List.any_eq_true] at hb
      rcases hb with ⟨q, hq, cc, hcc, heq⟩ | heq
      · exact hsep q hq cc hcc p hp (beq_iff_eq.mp heq).symm
      · exact hpk (killerKey_inj (beq_iff_eq.mp heq))

/-- C5: every candidate proposition the generator returns is true under the
ground-truth valuation (all drawn attribute atoms true, exactly the true
killer's is-killer atom true, everything else false).  The hypothesis hsep
says the is-killer keys are stringwise distinct from all drawn attribute
keys, the condition under which the described valuation is well defined. -/
theorem generated_proposition_true_in_ground_truth (g : Game)
    (r r' : RandState) (f : Formula) (d : PropositionData)
    (hsep : ∀ q ∈ g.names, ∀ c ∈ allCategories, ∀ nm ∈ g.names,
      attrKey q (getAttr (g.ground_truth q) c) ≠ killerKey nm)
    (h : generate_proposition g r = (some (f, d), r')) :
    f.eval (gtVal g) = true := by
  rcases generate_proposition_branch g r with hb | hb | hb | hb | hb <;>
    rw [hb] at h
  · obtain ⟨p, c, hp, hc, hf, -⟩ := gen_person_and_attribute_shape h
    subst hf
    simp only [Formula.eval]
    exact gtVal_attr_true hp (fourCats_sub_allCategories hc)
  · obtain ⟨p1, p2, c1, c2, hp1, hp2, -, hc1, hc2, hf, -⟩ :=
      gen_person_or_person_shape h
    subst hf
    simp only [Formula.eval]
    rw [gtVal_attr_true hp1 (fourCats_sub_allCategories
      (threeCats_sub_fourCats hc1))]
    rfl
  · obtain ⟨p, c, hp, hpk, hc, hf, -⟩ :=
      gen_person_attribute_implies_not_killer_shape h
    subst hf
    simp only [Formula.eval]
    rw [gtVal_killerKey_false hp hpk hsep]
    simp
  · obtain ⟨p1, p2, hp1, hp2, -, hf, -⟩ := gen_complex_or_shape h
    subst hf
    simp only [Formula.eval]
    have hm := gtVal_attr_true (c := "material") hp1
      (by simp [allCategories])
    rw [getAttr_material] at hm
    rw [hm]
    rfl
  · obtain ⟨p, c, hp, hpk, hc, hf, -⟩ := gen_direct_elimination_shape h
    have hpn : p ∈ g.names := check_mem_names hp
    subst hf
    simp only [Formula.eval]
    rw [gtVal_attr_true hpn (fourCats_sub_allCategories
      (threeCats_sub_fourCats hc)), gtVal_killerKey_false hpn hpk hsep]
    rfl

set_option maxRecDepth 20000 in
theorem generated_proposition_true_in_ground_truth_witness :
    Formula.eval (gtVal gW) (.atom "B_f") = true :=
  generated_proposition_true_in_ground_truth gW ⟨0, 0⟩ ⟨0, 3⟩
    (.atom "B_f")
    { prop_type := "person_and_attribute", person := some "B",
      attr_category := some "food", value := some "f" }
    (by decide) (by decide)

/-- C6: template legality — every proposition produced by the Alibi
Implication or Direct Elimination template describes a person who is not the
true killer (the person is drawn from a list filtered to exclude the
killer). -/
theorem alibi_and_direct_elimination_person_ne_killer (g : Game)
    (r r' : RandState) (f : Formula) (d : PropositionData)
    (h : generate_proposition g r = (some (f, d), r'))
    (ht : d.prop_type = PROP_PERSON_ATTRIBUTE_IMPLIES_NOT_KILLER ∨
      d.prop_type = PROP_DIRECT_ELIMINATION) :
    ∃ p, d.person = some p ∧ p ≠ g.killer := by
  rcases generate_proposition_branch g r with hb | hb | hb | hb | hb <;>
    rw [hb] at h
  · obtain ⟨p, c, -, -, -, hd⟩ := gen_person_and_attribute_shape h
    rw [hd] at ht
    simp [PROP_PERSON_AND_ATTRIBUTE,
      PROP_PERSON_ATTRIBUTE_IMPLIES_NOT_KILLER,
      PROP_DIRECT_ELIMINATION] at ht
  · obtain ⟨p1, p2, c1, c2, -, -, -, -, -, -, hd⟩ :=
      gen_person_or_person_shape h
    rw [hd] at ht
    simp [PROP_PERSON_OR_PERSON,
      PROP_PERSON_ATTRIBUTE_IMPLIES_NOT_KILLER,
      PROP_DIRECT_ELIMINATION] at ht
  · obtain ⟨p, c, -, hpk, -, -, hd⟩ :=
      gen_person_attribute_implies_not_killer_shape h
    exact ⟨p, by rw [hd], hpk⟩
  · obtain ⟨p1, p2, -, -, -, -, hd⟩ := gen_complex_or_shape h
    rw [hd] at ht
    simp [PROP_COMPLEX_OR,
      PROP_PERSON_ATTRIBUTE_IMPLIES_NOT_KILLER,
      PROP_DIRECT_ELIMINATION] at ht
  · obtain ⟨p, c, -, hpk, -, -, hd⟩ := gen_direct_elimination_shape h
    exact ⟨p, by rw [hd], hpk⟩

set_option maxRecDepth 20000 in
theorem alibi_and_direct_elimination_person_ne_killer_witness :
    ∃ p, some "B" = some p ∧ p ≠ gW.killer :=
  alibi_and_direct_elimination_person_ne_killer gW ⟨60, 0⟩ ⟨60, 3⟩
    (.implies (.atom "B_f") (.not (.atom "B_is_killer")))
    { prop_type := "person_attribute_implies_not_killer",
      person := some "B", attr_category := some "food", value := some "f" }
    (by decide) (Or.inl (by decide))

/-- C10: every atom occurring in a generated proposition is either some
name's is-killer atom or an attribute atom reading that person's drawn value
in one of the four categories material/institution/food/place (the Statement
template draws from all four, the other templates from the first three);
consequently, whenever the technology and company values do not collide
stringwise with those keys, no generated proposition mentions a technology or
company atom of any person. -/
theorem generated_atoms_avoid_technology_and_company (g : Game)
    (r r' : RandState) (f : Formula) (d : PropositionData)
    (h : generate_proposition g r = (some (f, d), r')) :
    (∀ a ∈ f.atoms,
      (∃ q, q ∈ g.names ∧ a = killerKey q) ∨
      (∃ q c, q ∈ g.names ∧
        c ∈ ["material", "institution", "food", "place"] ∧
        a = attrKey q (getAttr (g.ground_truth q) c))) ∧
    ((∀ q ∈ g.names, ∀ c ∈ ["material", "institution", "food", "place"],
        ∀ p ∈ g.names, ∀ v ∈ g.technologies ++ g.companies,
          attrKey q (getAttr (g.ground_truth q) c) ≠ attrKey p v) →
      (∀ nm ∈ g.names, ∀ p ∈ g.names, ∀ v ∈ g.technologies ++ g.companies,
        killerKey nm ≠ attrKey p v) →
      ∀ a ∈ f.atoms, ∀ p ∈ g.names, ∀ v,
        (v ∈ g.technologies ∨ v ∈ g.companies) → a ≠ attrKey p v) := by
  have hchar : ∀ a ∈ f.atoms,
      (∃ q, q ∈ g.names ∧ a = killerKey q) ∨
      (∃ q c, q ∈ g.names ∧
        c ∈ ["material", "institution", "food", "place"] ∧
        a = attrKey q (getAttr (g.ground_truth q) c)) := by
    intro a ha
    rcases generate_proposition_branch g r with hb | hb | hb | hb | hb <;>
      rw [hb] at h
    · obtain ⟨p, c, hp, hc, hf, -⟩ := gen_person_and_attribute_shape h
      subst hf
      simp only [Formula.atoms, List.mem_singleton] at ha
      exact Or.inr ⟨p, c, hp, hc, ha⟩
    · obtain ⟨p1, p2, c1, c2, hp1, hp2, -, hc1, hc2, hf, -⟩ :=
        gen_person_or_person_shape h
      subst hf
      simp only [Formula.atoms, List.mem_append, List.mem_singleton] at ha
      rcases ha with rfl | rfl
      · exact Or.inr ⟨p1, c1, hp1, threeCats_sub_fourCats hc1, rfl⟩
      · exact Or.inr ⟨p2, c2, hp2, threeCats_sub_fourCats hc2, rfl⟩
    · obtain ⟨p, c, hp, -, hc, hf, -⟩ :=
        gen_person_attribute_implies_not_killer_shape h
      subst hf
      simp only [Formula.atoms, List.mem_append, List.mem_singleton] at ha
      rcases ha with rfl | rfl
      · exact Or.inr ⟨p, c, hp, threeCats_sub_fourCats hc, rfl⟩
      · exact Or.inl ⟨p, hp, rfl⟩
    · obtain ⟨p1, p2, hp1, hp2, -, hf, -⟩ := gen_complex_or_shape h
      subst hf
      simp only [Formula.atoms, List.mem_append, List.mem_singleton] at ha
      rcases ha with rfl | rfl | rfl
      · exact Or.inr ⟨p1, "material", hp1, by decide,
          by rw [getAttr_material]⟩
      · exact Or.inr ⟨p2, "food", hp2, by decide, by rw [getAttr_food]⟩
      · exact Or.inr ⟨p2, "institution", hp2, by decide,
          by rw [getAttr_institution]⟩
    · obtain ⟨p, c, hp, -, hc, hf, -⟩ := gen_direct_elimination_shape h
      have hpn : p ∈ g.names := check_mem_names hp
      subst hf
      simp only [Formula.atoms, List.mem_append, List.mem_singleton] at ha
      rcases ha with rfl | rfl | rfl
      · exact Or.inr ⟨p, c, hpn, threeCats_sub_fourCats hc, rfl⟩
      · exact Or.inr ⟨p, c, hpn, threeCats_sub_fourCats hc, rfl⟩
      · exact Or.inl ⟨p, hpn, rfl⟩
  refine ⟨hchar, ?_⟩
  intro h1 h2 a ha p hpn v hv
  have hv2 : v ∈ g.technologies ++ g.companies := List.mem_append.mpr hv
  rcases hchar a ha with ⟨q, hq, rfl⟩ | ⟨q, c, hq, hc, rfl⟩
  · exact h2 q hq p hpn v hv2
  · exact h1 q hq c hc p hpn v hv2

set_option maxRecDepth 20000 in
theorem generated_atoms_avoid_technology_and_company_witness :
    ("B_f" : String) ≠ attrKey "A" "t" :=
  (generated_atoms_avoid_technology_and_company gW ⟨0, 0⟩ ⟨0, 3⟩
    (.atom "B_f")
    { prop_type := "person_and_attribute", person := some "B",
      attr_category := some "food", value := some "f" }
    (by decide)).2 (by decide) (by decide) "B_f" (by decide) "A" (by decide)
    "t" (Or.inl (by decide))

set_option maxRecDepth 20000 in
theorem feasibility_oracle_iff_sat_witness :
    is_feasible_with_proposition gW
      (.not (.atom (killerKey gW.killer))) = false :=
  (feasibility_oracle_iff_sat gW Formula.tru).2

theorem check_solution_count_spec_witness :
    check_solution_count { gW with knowledge_base := [] } =
      (({ gW with knowledge_base := [] } : Game).names.length,
        ({ gW with knowledge_base := [] } : Game).names) :=
  (check_solution_count_spec { gW with knowledge_base := [] }).2.2 rfl
